import Mathlib

/-!
Verification of the sales-data cleaning transform in
`src/data_cleaning.py` against its specification.

The table model is row-major: a header (list of column names) and a list
of rows (lists of cells).  Cells carry rational numbers (standing for the
finite floats of the source), the two floating-point infinities, a missing
marker (NaN / null), or a raw string.  All functions of the source that
the claims touch are embedded below with their source names where Lean
permits.
-/

namespace DataCleaning

/-- Cell values of a loaded table: a finite number (rationals stand for
finite floats), positive or negative infinity, a missing value (NaN or
null), or a raw string. -/
inductive Cell where
  | num (q : ℚ)
  | pinf
  | ninf
  | missing
  | str (s : String)
  deriving DecidableEq, Repr

/-- Row-major table: an ordered header of column names and a list of rows. -/
structure Table where
  header : List String
  rows : List (List Cell)
  deriving DecidableEq, Repr

/-- Well-formed table: every row has exactly one cell per header entry. -/
def WF (t : Table) : Prop := ∀ r ∈ t.rows, r.length = t.header.length

instance (t : Table) : Decidable (WF t) := by
  unfold WF; infer_instance

/-! ### Character helpers (ASCII model of Python str methods and regexes) -/

/-- ASCII whitespace, matching the characters of the regex class \s
(space, tab, newline, vertical tab, form feed, carriage return). -/
def isSpace (c : Char) : Bool := c.toNat = 32 || (9 ≤ c.toNat && c.toNat ≤ 13)

/-- Characters kept by the normalization regex [0-9a-zA-Z_]. -/
def isWordChar (c : Char) : Bool :=
  (48 ≤ c.toNat && c.toNat ≤ 57) || (97 ≤ c.toNat && c.toNat ≤ 122) ||
  (65 ≤ c.toNat && c.toNat ≤ 90) || c.toNat = 95

/-- ASCII digit characters. -/
def isDigit (c : Char) : Bool := 48 ≤ c.toNat && c.toNat ≤ 57

/-- ASCII lowercasing, the effect of Python str.lower on ASCII text. -/
def toLowerCh (c : Char) : Char :=
  if 65 ≤ c.toNat && c.toNat ≤ 90 then Char.ofNat (c.toNat + 32) else c

/-- Drops leading whitespace, the first half of Python str.strip. -/
def dropLeading (l : List Char) : List Char := l.dropWhile isSpace

/-- Drops trailing whitespace, the second half of Python str.strip. -/
def dropTrailing : List Char → List Char
  | [] => []
  | c :: cs =>
    match dropTrailing cs with
    | [] => if isSpace c then [] else [c]
    | r => c :: r

/-- Python str.strip on a character list. -/
def stripList (l : List Char) : List Char := dropTrailing (dropLeading l)

/-- Replaces every run of whitespace by the single character given as
`sep`; the Boolean flag records whether the previous character was part of
a whitespace run.  This is re.sub with pattern \s+ on ASCII text. -/
def collapseRuns (sep : Char) : Bool → List Char → List Char
  | _, [] => []
  | prev, c :: cs =>
    if isSpace c then
      if prev then collapseRuns sep true cs
      else sep :: collapseRuns sep true cs
    else c :: collapseRuns sep false cs

/-- Embeds `standardize_column_names` on one name (lines 22-26 of the
source): strip, lowercase, collapse whitespace runs to one underscore,
then delete every character outside [0-9a-zA-Z_]. -/
def normalizeName (s : String) : String :=
  String.mk ((collapseRuns '_' false ((stripList s.toList).map toLowerCh)).filter isWordChar)

/-- Embeds the text sanitizer of `clean_sales_data` (line 138 of the
source) on one string: replace each whitespace run by one space, then
strip leading and trailing whitespace. -/
def cleanText (s : String) : String :=
  String.mk (stripList (collapseRuns ' ' false s.toList))

/-! ### Numeric parsing (model of pd.to_numeric with errors="coerce") -/

/-- Numeric value of a digit character. -/
def digitVal (c : Char) : ℕ := c.toNat - 48

/-- Value of a digit string read left to right. -/
def digitsToNat (l : List Char) : ℕ := l.foldl (fun acc c => 10 * acc + digitVal c) 0

/-- Parses an optional exponent suffix: optional sign then digits. -/
def parseExp (l : List Char) : Option ℤ :=
  match l with
  | '+' :: rest => if rest ≠ [] && rest.all isDigit then some (digitsToNat rest : ℤ) else none
  | '-' :: rest => if rest ≠ [] && rest.all isDigit then some (-(digitsToNat rest : ℤ)) else none
  | rest => if rest ≠ [] && rest.all isDigit then some (digitsToNat rest : ℤ) else none

/-- Parses an unsigned decimal literal with optional fraction and optional
exponent, the float grammar accepted by the numeric coercion of the
source for unsigned inputs. -/
def parseDecimal (l : List Char) : Option ℚ :=
  let intPart := l.takeWhile isDigit
  let r1 := l.dropWhile isDigit
  match r1 with
  | [] => if intPart.isEmpty then none else some (digitsToNat intPart : ℚ)
  | '.' :: r2 =>
    let frac := r2.takeWhile isDigit
    let r3 := r2.dropWhile isDigit
    if intPart.isEmpty && frac.isEmpty then none
    else
      let base : ℚ := (digitsToNat intPart : ℚ) + (digitsToNat frac : ℚ) / ((10 : ℚ) ^ frac.length)
      match r3 with
      | [] => some base
      | 'e' :: r4 => (parseExp r4).map (fun e => base * (10 : ℚ) ^ e)
      | _ => none
  | 'e' :: r2 =>
    if intPart.isEmpty then none
    else (parseExp r2).map (fun e => (digitsToNat intPart : ℚ) * (10 : ℚ) ^ e)
  | _ => none

/-- Parses a sign-free numeric literal with a given sign: the literals
inf and infinity give infinities, nan gives the missing value, a decimal
literal gives its value, anything else gives the missing value. -/
def parseSigned (rest : List Char) (sign : ℤ) : Cell :=
  if rest = "inf".toList || rest = "infinity".toList then
    (if sign = 1 then Cell.pinf else Cell.ninf)
  else if rest = "nan".toList then Cell.missing
  else
    match parseDecimal rest with
    | some q => Cell.num ((sign : ℚ) * q)
    | none => Cell.missing

/-- Parses one string cell the way pd.to_numeric with errors="coerce"
does: strip whitespace, case-insensitive, optional sign, the literals inf
and infinity give infinities, nan and any unparseable text give the
missing value. -/
def parseNumStr (s : String) : Cell :=
  match (stripList s.toList).map toLowerCh with
  | '+' :: rest => parseSigned rest 1
  | '-' :: rest => parseSigned rest (-1)
  | rest => parseSigned rest 1

/-- Embeds pd.to_numeric with errors="coerce" on one cell (lines 61 and
68 of the source): numbers and infinities pass through, missing stays
missing, strings are parsed or coerced to missing. -/
def toNumericCell (c : Cell) : Cell :=
  match c with
  | .num q => .num q
  | .pinf => .pinf
  | .ninf => .ninf
  | .missing => .missing
  | .str s => parseNumStr s

/-- Embeds Series.fillna on one cell: only the missing value is replaced
by the fill value; numbers, infinities and strings pass through. -/
def fillNa (fill : ℚ) (c : Cell) : Cell :=
  match c with
  | .missing => .num fill
  | c => c

/-- Finite numeric values of a column, the values that survive
replace([inf, -inf], nan) and skipna in the median computation. -/
def finiteVals (col : List Cell) : List ℚ :=
  col.filterMap (fun c => match c with | .num q => some q | _ => none)

/-- Insertion into a sorted list of rationals. -/
def insertSorted (x : ℚ) : List ℚ → List ℚ
  | [] => [x]
  | y :: ys => if x ≤ y then x :: y :: ys else y :: insertSorted x ys

/-- Insertion sort on rationals. -/
def sortQ (l : List ℚ) : List ℚ := l.foldr insertSorted []

/-- Embeds Series.median with skipna on the list of remaining values:
none on the empty list, the middle element for odd length, the mean of
the two middle elements for even length. -/
def medianList (l : List ℚ) : Option ℚ :=
  let s := sortQ l
  if s.length = 0 then none
  else if s.length % 2 = 1 then some (s.getD (s.length / 2) 0)
  else some ((s.getD (s.length / 2 - 1) 0 + s.getD (s.length / 2) 0) / 2)

/-- Embeds lines 62-64 of the source: the median of the finite values of
the coerced price column, with fallback 0.0 when the median is NaN. -/
def priceFillValue (col : List Cell) : ℚ := (medianList (finiteVals col)).getD 0

/-! ### Table primitives -/

/-- Index of the first column with the given name, the column position
pandas addresses by df[name]. -/
def colIdx (name : String) : List String → Option ℕ
  | [] => none
  | h :: t => if h = name then some 0 else (colIdx name t).map (· + 1)

/-- Column read df[name]: the cells of the first column with that name,
empty when absent.  Cells beyond a ragged row read as missing. -/
def Table.getCol (t : Table) (name : String) : List Cell :=
  match colIdx name t.header with
  | some i => t.rows.map (fun r => r.getD i Cell.missing)
  | none => []

/-- Column write df[name] = f applied cell-wise: rewrites the first
column with that name, leaves the table unchanged when absent. -/
def Table.mapCol (t : Table) (name : String) (f : Cell → Cell) : Table :=
  match colIdx name t.header with
  | some i => { t with rows := t.rows.map (fun r => r.set i (f (r.getD i Cell.missing))) }
  | none => t

/-- Row filter df[df[name] >= 0]: keeps the rows whose cell in the first
column with that name compares greater or equal to zero the way pandas
comparisons do (NaN compares false, infinities compare by sign). -/
def cellGe0 : Cell → Bool
  | .num q => 0 ≤ q
  | .pinf => true
  | .ninf => false
  | .missing => false
  | .str _ => false

/-- Keeps the rows whose cell in the named column is nonnegative; the
whole table when the column is absent. -/
def filterByCol (t : Table) (name : String) : Table :=
  match colIdx name t.header with
  | some i => { t with rows := t.rows.filter (fun r => cellGe0 (r.getD i Cell.missing)) }
  | none => t

/-! ### The pipeline stages (source lines 17-154) -/

/-- Embeds `standardize_column_names` (lines 17-29): every column name is
normalized, rows are untouched. -/
def standardize_column_names (t : Table) : Table :=
  { t with header := t.header.map normalizeName }

/-- Embeds `find_column` (lines 32-37): the first candidate present among
the column names, none when no candidate is present. -/
def find_column (t : Table) (candidates : List String) : Option String :=
  candidates.find? (fun c => decide (c ∈ t.header))

/-- Alias list for the product field (line 109 of the source). -/
def productAliases : List String := ["product", "product_name", "name"]

/-- Alias list for the category field (line 110 of the source). -/
def categoryAliases : List String := ["category", "cat", "product_category"]

/-- Alias list for the price field (line 111 of the source). -/
def priceAliases : List String := ["price", "unit_price", "price_usd", "price_$"]

/-- Alias list for the quantity field (line 112 of the source). -/
def quantityAliases : List String := ["quantity", "qty", "amount", "units"]

/-- Every alias of every canonical field. -/
def allAliases : List String :=
  productAliases ++ categoryAliases ++ priceAliases ++ quantityAliases

/-- Embeds the rename_map construction of `clean_sales_data` (lines
123-132): one entry per detected field, mapping the detected column name
to the canonical field name. -/
def buildRenameMap (t : Table) : List (String × String) :=
  (match find_column t productAliases with | some c => [(c, "product")] | none => []) ++
  (match find_column t categoryAliases with | some c => [(c, "category")] | none => []) ++
  (match find_column t priceAliases with | some c => [(c, "price")] | none => []) ++
  (match find_column t quantityAliases with | some c => [(c, "quantity")] | none => [])

/-- Applies a rename map to one column name the way df.rename does: the
value of the first matching entry, the name itself otherwise. -/
def applyRename (m : List (String × String)) (n : String) : String :=
  match m.find? (fun p => p.1 = n) with
  | some p => p.2
  | none => n

/-- Embeds the detection and rename step of `clean_sales_data` (lines
108-132). -/
def detectRename (t : Table) : Table :=
  { t with header := t.header.map (applyRename (buildRenameMap t)) }

/-- String coercion astype(str) of one cell.  The rendering of numbers is
abstracted to an executable representation; missing renders as the
literal text nan, as in pandas. -/
def cellToString : Cell → String
  | .num q => toString q.num ++ (if q.den = 1 then "" else "/" ++ toString q.den)
  | .pinf => "inf"
  | .ninf => "-inf"
  | .missing => "nan"
  | .str s => s

/-- Embeds line 138 of the source on a cell: astype(str), collapse
whitespace runs to one space, strip. -/
def sanitizeCell (c : Cell) : Cell := .str (cleanText (cellToString c))

/-- Embeds the whitespace-trimming loop of `clean_sales_data` (lines
136-139): the product column first, then the category column, each only
when present. -/
def sanitize_text (t : Table) : Table :=
  (t.mapCol "product" sanitizeCell).mapCol "category" sanitizeCell

/-- Embeds `handle_missing_values` (lines 59-71): coerce price to
numeric, fill missing price cells with the median of the finite values of
the coerced column (0.0 when there are none), then coerce quantity and
fill its missing cells with 0. -/
def handle_missing_values (t : Table) : Table :=
  let t1 :=
    if "price" ∈ t.header then
      let tc := t.mapCol "price" toNumericCell
      tc.mapCol "price" (fillNa (priceFillValue (tc.getCol "price")))
    else t
  if "quantity" ∈ t1.header then
    (t1.mapCol "quantity" toNumericCell).mapCol "quantity" (fillNa 0)
  else t1

/-- Embeds `remove_invalid_rows` (lines 78-93): drop the rows with
negative price, then from the remainder the rows with negative
quantity. -/
def remove_invalid_rows (t : Table) : Table :=
  filterByCol (filterByCol t "price") "quantity"

/-- Embeds the in-memory transform of `clean_sales_data` (lines 96-154),
stages 2 to 5: column-name standardization, field detection and rename,
text sanitization, missing-value handling, invalid-row removal.  Loading
and writing are outside the table model; reset_index is the identity in
a model without a row index. -/
def clean_sales_data (t : Table) : Table :=
  remove_invalid_rows (handle_missing_values (sanitize_text (detectRename (standardize_column_names t))))

/-! ### Character lemmas -/

theorem toNat_ofNat_valid {n : ℕ} (h : n.isValidChar) : (Char.ofNat n).toNat = n := by
  unfold Char.ofNat
  rw [dif_pos h]
  rfl

theorem isSpace_iff {c : Char} : isSpace c = true ↔ (c.toNat = 32 ∨ (9 ≤ c.toNat ∧ c.toNat ≤ 13)) := by
  simp [isSpace]

theorem isWordChar_iff {c : Char} :
    isWordChar c = true ↔
      ((48 ≤ c.toNat ∧ c.toNat ≤ 57) ∨ (97 ≤ c.toNat ∧ c.toNat ≤ 122) ∨
       (65 ≤ c.toNat ∧ c.toNat ≤ 90) ∨ c.toNat = 95) := by
  simp [isWordChar, or_assoc]

theorem word_not_space {c : Char} (h : isWordChar c = true) : isSpace c = false := by
  rw [isWordChar_iff] at h
  rw [Bool.eq_false_iff, Ne, isSpace_iff]
  omega

theorem toLowerCh_of_not_upper {c : Char} (h : ¬(65 ≤ c.toNat ∧ c.toNat ≤ 90)) :
    toLowerCh c = c := by
  unfold toLowerCh
  rw [if_neg]
  simpa using h

theorem toLowerCh_toNat_of_upper {c : Char} (h : 65 ≤ c.toNat ∧ c.toNat ≤ 90) :
    (toLowerCh c).toNat = c.toNat + 32 := by
  unfold toLowerCh
  rw [if_pos (by simpa using h)]
  exact toNat_ofNat_valid (Or.inl (by omega))

theorem toLowerCh_idem (c : Char) : toLowerCh (toLowerCh c) = toLowerCh c := by
  by_cases h : 65 ≤ c.toNat ∧ c.toNat ≤ 90
  · have h2 := toLowerCh_toNat_of_upper h
    exact toLowerCh_of_not_upper (by omega)
  · rw [toLowerCh_of_not_upper h, toLowerCh_of_not_upper h]

/-! ### Small list lemmas -/

theorem getD_set_self {α} (l : List α) (i : ℕ) (x d : α) (h : i < l.length) :
    (l.set i x).getD i d = x := by
  induction l generalizing i with
  | nil => simp at h
  | cons hd tl ih =>
    cases i with
    | zero => rfl
    | succ j => exact ih j (by simpa using h)

theorem getD_set_ne {α} (l : List α) (i j : ℕ) (x d : α) (h : i ≠ j) :
    (l.set i x).getD j d = l.getD j d := by
  induction l generalizing i j with
  | nil => rfl
  | cons hd tl ih =>
    cases i with
    | zero =>
      cases j with
      | zero => exact absurd rfl h
      | succ k => rfl
    | succ i0 =>
      cases j with
      | zero => rfl
      | succ k => exact ih i0 k (by omega)

theorem set_getD_self {α} (l : List α) (i : ℕ) (d : α) : l.set i (l.getD i d) = l := by
  induction l generalizing i with
  | nil => rfl
  | cons hd tl ih =>
    cases i with
    | zero => rfl
    | succ j => simpa [List.set, List.getD] using ih j

theorem getD_out {α} (l : List α) {i : ℕ} (d : α) (h : l.length ≤ i) : l.getD i d = d := by
  induction l generalizing i with
  | nil => rfl
  | cons hd tl ih =>
    cases i with
    | zero => simp at h
    | succ j => exact ih (by simpa using h)

theorem map_id_on {α} {l : List α} {f : α → α} (h : ∀ a ∈ l, f a = a) : l.map f = l := by
  induction l with
  | nil => rfl
  | cons hd tl ih => simp [h hd (by simp), ih (fun a ha => h a (List.mem_cons_of_mem _ ha))]

theorem getD_map_of_fix {α} (f : α → α) (d : α) (hfd : f d = d) (l : List α) (k : ℕ) :
    (l.map f).getD k d = f (l.getD k d) := by
  induction l generalizing k with
  | nil => simpa [List.getD] using hfd.symm
  | cons hd tl ih =>
    cases k with
    | zero => rfl
    | succ j => exact ih j

/-! ### colIdx lemmas -/

theorem colIdx_lt {name : String} {h : List String} {i : ℕ} (e : colIdx name h = some i) :
    i < h.length := by
  induction h generalizing i with
  | nil => simp [colIdx] at e
  | cons hd tl ih =>
    by_cases hh : hd = name
    · simp [colIdx, hh] at e
      simp only [List.length_cons]
      omega
    · simp only [colIdx, if_neg hh, Option.map_eq_some'] at e
      obtain ⟨j, hj, rfl⟩ := e
      have hlen := ih hj
      simp only [List.length_cons]
      omega

theorem colIdx_getD {name : String} {h : List String} {i : ℕ} (e : colIdx name h = some i) :
    h.getD i "" = name := by
  induction h generalizing i with
  | nil => simp [colIdx] at e
  | cons hd tl ih =>
    by_cases hh : hd = name
    · simp [colIdx, hh] at e
      subst e
      exact hh
    · simp only [colIdx, if_neg hh, Option.map_eq_some'] at e
      obtain ⟨j, hj, rfl⟩ := e
      exact ih hj

theorem colIdx_none_iff {name : String} {h : List String} :
    colIdx name h = none ↔ name ∉ h := by
  induction h with
  | nil => simp [colIdx]
  | cons hd tl ih =>
    by_cases hh : hd = name
    · simp [colIdx, hh]
    · simp [colIdx, if_neg hh, Option.map_eq_none', ih, Ne.symm hh]

theorem getD_mem {α} (l : List α) (i : ℕ) (d : α) (h : i < l.length) : l.getD i d ∈ l := by
  induction l generalizing i with
  | nil => simp at h
  | cons hd tl ih =>
    cases i with
    | zero => exact List.mem_cons_self _ _
    | succ j => exact List.mem_cons_of_mem _ (ih j (by simpa using h))

theorem mem_iff_colIdx_some {name : String} {h : List String} :
    name ∈ h ↔ ∃ i, colIdx name h = some i := by
  constructor
  · intro hmem
    cases e : colIdx name h with
    | none => exact absurd hmem (colIdx_none_iff.mp e)
    | some i => exact ⟨i, rfl⟩
  · rintro ⟨i, hi⟩
    have h1 := colIdx_getD hi
    have h2 := colIdx_lt hi
    have h3 := getD_mem h i "" h2
    rwa [h1] at h3

theorem colIdx_ne_of_name_ne {n₁ n₂ : String} {h : List String} {i j : ℕ}
    (hne : n₁ ≠ n₂) (e1 : colIdx n₁ h = some i) (e2 : colIdx n₂ h = some j) : i ≠ j := by
  intro hij
  subst hij
  exact hne ((colIdx_getD e1).symm.trans (colIdx_getD e2))

/-! ### Whitespace collapsing and stripping lemmas -/

theorem mem_collapseRuns {sep : Char} {c : Char} :
    ∀ {b : Bool} {l : List Char}, c ∈ collapseRuns sep b l →
      c = sep ∨ (c ∈ l ∧ isSpace c = false) := by
  intro b l
  induction l generalizing b with
  | nil => intro h; simp [collapseRuns] at h
  | cons hd tl ih =>
    intro h
    by_cases hs : isSpace hd = true
    · cases b with
      | true =>
        simp only [collapseRuns, hs, if_pos] at h
        rcases ih h with h1 | ⟨h2, h3⟩
        · exact Or.inl h1
        · exact Or.inr ⟨List.mem_cons_of_mem _ h2, h3⟩
      | false =>
        simp only [collapseRuns, hs, if_pos] at h
        rcases List.mem_cons.mp h with h1 | h1
        · exact Or.inl h1
        · rcases ih h1 with h2 | ⟨h3, h4⟩
          · exact Or.inl h2
          · exact Or.inr ⟨List.mem_cons_of_mem _ h3, h4⟩
    · have hs0 : isSpace hd = false := by simpa using hs
      simp only [collapseRuns, hs0, Bool.false_eq_true, if_neg, if_false] at h
      rcases List.mem_cons.mp h with h1 | h1
      · subst h1
        exact Or.inr ⟨List.mem_cons_self _ _, hs0⟩
      · rcases ih h1 with h2 | ⟨h3, h4⟩
        · exact Or.inl h2
        · exact Or.inr ⟨List.mem_cons_of_mem _ h3, h4⟩

theorem collapseRuns_of_no_space {sep : Char} {l : List Char}
    (h : ∀ c ∈ l, isSpace c = false) : ∀ b, collapseRuns sep b l = l := by
  induction l with
  | nil => intro b; rfl
  | cons hd tl ih =>
    intro b
    have hhd : isSpace hd = false := h hd (List.mem_cons_self _ _)
    simp only [collapseRuns, hhd, Bool.false_eq_true, if_false]
    rw [ih (fun c hc => h c (List.mem_cons_of_mem _ hc))]

theorem collapseRuns_true_head {sep : Char} :
    ∀ {l : List Char} {h : Char}, (collapseRuns sep true l).head? = some h →
      (h = sep → False) → isSpace h = false := by
  intro l
  induction l with
  | nil => intro h e _; simp [collapseRuns] at e
  | cons hd tl ih =>
    intro h e hne
    by_cases hs : isSpace hd = true
    · simp only [collapseRuns, hs, if_pos] at e
      exact ih e hne
    · have hs0 : isSpace hd = false := by simpa using hs
      simp only [collapseRuns, hs0, Bool.false_eq_true, if_false, List.head?_cons,
        Option.some.injEq] at e
      subst e
      exact hs0

/-- Space runs of widths larger than one never occur: consecutive
characters are never both whitespace. -/
def NoDbl : List Char → Prop
  | a :: b :: rest => (isSpace a = false ∨ isSpace b = false) ∧ NoDbl (b :: rest)
  | _ => True

/-- Every whitespace character of the list is the plain space. -/
def BlankOnly (l : List Char) : Prop := ∀ c ∈ l, isSpace c = true → c = ' '

theorem noDbl_nil : NoDbl [] := trivial

theorem noDbl_tail {a : Char} {l : List Char} (h : NoDbl (a :: l)) : NoDbl l := by
  cases l with
  | nil => trivial
  | cons b rest => exact h.2

theorem noDbl_cons {a : Char} {l : List Char} (h : NoDbl l)
    (hh : ∀ x, l.head? = some x → isSpace a = false ∨ isSpace x = false) :
    NoDbl (a :: l) := by
  cases l with
  | nil => trivial
  | cons b rest => exact ⟨hh b rfl, h⟩

theorem blankOnly_collapseRuns {b : Bool} {l : List Char} :
    BlankOnly (collapseRuns ' ' b l) := by
  intro c hc hcs
  rcases mem_collapseRuns hc with h1 | ⟨_, h3⟩
  · exact h1
  · rw [h3] at hcs
    exact absurd hcs (by simp)

theorem collapseRuns_head_not_space_of_true {l : List Char} {h : Char}
    (e : (collapseRuns ' ' true l).head? = some h) : isSpace h = false ∨ h = ' ' := by
  by_cases hh : h = ' '
  · exact Or.inr hh
  · exact Or.inl (collapseRuns_true_head e (fun hx => hh hx))

theorem collapseRuns_true_head_not_space {l : List Char} {h : Char}
    (e : (collapseRuns ' ' true l).head? = some h) : isSpace h = false := by
  induction l with
  | nil => simp [collapseRuns] at e
  | cons hd tl ih =>
    by_cases hs : isSpace hd = true
    · simp only [collapseRuns, hs, if_pos] at e
      exact ih e
    · have hs0 : isSpace hd = false := by simpa using hs
      simp only [collapseRuns, hs0, Bool.false_eq_true, if_false, List.head?_cons,
        Option.some.injEq] at e
      subst e
      exact hs0

theorem noDbl_collapseRuns {l : List Char} : ∀ b, NoDbl (collapseRuns ' ' b l) := by
  induction l with
  | nil => intro b; trivial
  | cons hd tl ih =>
    intro b
    by_cases hs : isSpace hd = true
    · cases b with
      | true =>
        simp only [collapseRuns, hs, if_pos]
        exact ih true
      | false =>
        simp only [collapseRuns, hs, if_pos]
        exact noDbl_cons (ih true) (fun x hx => Or.inr (collapseRuns_true_head_not_space hx))
    · have hs0 : isSpace hd = false := by simpa using hs
      simp only [collapseRuns, hs0, Bool.false_eq_true, if_false]
      exact noDbl_cons (ih false) (fun x _ => Or.inl hs0)

theorem noDbl_dropWhile {p : Char → Bool} {l : List Char} (h : NoDbl l) :
    NoDbl (l.dropWhile p) := by
  induction l with
  | nil => trivial
  | cons hd tl ih =>
    by_cases hp : p hd = true
    · rw [List.dropWhile_cons_of_pos hp]
      exact ih (noDbl_tail h)
    · rw [List.dropWhile_cons_of_neg (by simpa using hp)]
      exact h

theorem head_dropWhile_not {p : Char → Bool} {l : List Char} {h : Char}
    (e : (l.dropWhile p).head? = some h) : p h = false := by
  induction l with
  | nil => simp [List.dropWhile] at e
  | cons hd tl ih =>
    by_cases hp : p hd = true
    · rw [List.dropWhile_cons_of_pos hp] at e
      exact ih e
    · rw [List.dropWhile_cons_of_neg (by simpa using hp)] at e
      simp only [List.head?_cons, Option.some.injEq] at e
      subst e
      simpa using hp

theorem mem_dropTrailing {c : Char} : ∀ {l : List Char}, c ∈ dropTrailing l → c ∈ l := by
  intro l
  induction l with
  | nil => intro h; simp [dropTrailing] at h
  | cons hd tl ih =>
    intro h
    simp only [dropTrailing] at h
    cases e : dropTrailing tl with
    | nil =>
      rw [e] at h
      by_cases hs : isSpace hd = true
      · simp [hs] at h
      · simp [hs] at h
        simp [h]
    | cons x xs =>
      rw [e] at h
      rcases List.mem_cons.mp h with h1 | h1
      · simp [h1]
      · exact List.mem_cons_of_mem _ (ih (e ▸ h1))

theorem dropTrailing_head {l : List Char} {h : Char}
    (e : (dropTrailing l).head? = some h) : l.head? = some h := by
  cases l with
  | nil => simp [dropTrailing] at e
  | cons hd tl =>
    simp only [dropTrailing] at e
    cases e2 : dropTrailing tl with
    | nil =>
      rw [e2] at e
      by_cases hs : isSpace hd = true
      · simp [hs] at e
      · simp [hs] at e
        simp [e]
    | cons x xs =>
      rw [e2] at e
      simp only [List.head?_cons, Option.some.injEq] at e
      simp [e]

theorem noDbl_dropTrailing {l : List Char} (h : NoDbl l) : NoDbl (dropTrailing l) := by
  induction l with
  | nil => trivial
  | cons hd tl ih =>
    simp only [dropTrailing]
    cases e : dropTrailing tl with
    | nil =>
      by_cases hs : isSpace hd = true
      · simp only [hs, if_pos]
        trivial
      · simp only [hs, Bool.false_eq_true, if_neg, if_false]
        trivial
    | cons x xs =>
      apply noDbl_cons (e ▸ ih (noDbl_tail h))
      intro y hy
      simp only [List.head?_cons, Option.some.injEq] at hy
      subst hy
      have hx : tl.head? = some x := dropTrailing_head (by rw [e]; rfl)
      cases tl with
      | nil => simp at hx
      | cons z zs =>
        simp only [List.head?_cons, Option.some.injEq] at hx
        subst hx
        rcases h.1 with h1 | h1
        · exact Or.inl h1
        · exact Or.inr h1

theorem dropTrailing_last_not_space {l : List Char} {h : Char}
    (e : (dropTrailing l).getLast? = some h) : isSpace h = false := by
  induction l with
  | nil => simp [dropTrailing] at e
  | cons hd tl ih =>
    simp only [dropTrailing] at e
    cases e2 : dropTrailing tl with
    | nil =>
      rw [e2] at e
      by_cases hs : isSpace hd = true
      · simp [hs] at e
      · simp [hs] at e
        subst e
        simpa using hs
    | cons x xs =>
      rw [e2] at e
      rw [List.getLast?_cons_cons] at e
      exact ih (e2 ▸ e)

theorem dropWhile_of_head {p : Char → Bool} {l : List Char}
    (h : ∀ x, l.head? = some x → p x = false) : l.dropWhile p = l := by
  cases l with
  | nil => rfl
  | cons hd tl => exact List.dropWhile_cons_of_neg (by simp [h hd rfl])

theorem dropTrailing_of_last {l : List Char}
    (h : ∀ x, l.getLast? = some x → isSpace x = false) : dropTrailing l = l := by
  induction l with
  | nil => rfl
  | cons hd tl ih =>
    simp only [dropTrailing]
    cases tl with
    | nil =>
      have hhd := h hd (by simp)
      simp [dropTrailing, hhd]
    | cons z zs =>
      have htl : dropTrailing (z :: zs) = z :: zs := by
        apply ih
        intro x hx
        exact h x (by rw [List.getLast?_cons_cons]; exact hx)
      rw [htl]

theorem collapseRuns_id_of_clean {l : List Char} (hb : BlankOnly l) (hn : NoDbl l) :
    collapseRuns ' ' false l = l ∧
      ((∀ x, l.head? = some x → isSpace x = false) → collapseRuns ' ' true l = l) := by
  induction l with
  | nil => exact ⟨rfl, fun _ => rfl⟩
  | cons hd tl ih =>
    have ihtl := ih (fun c hc => hb c (List.mem_cons_of_mem _ hc)) (noDbl_tail hn)
    by_cases hs : isSpace hd = true
    · have hhd : hd = ' ' := hb hd (List.mem_cons_self _ _) hs
      have htl_head : ∀ x, tl.head? = some x → isSpace x = false := by
        intro x hx
        cases tl with
        | nil => simp at hx
        | cons z zs =>
          simp only [List.head?_cons, Option.some.injEq] at hx
          subst hx
          rcases hn.1 with h1 | h1
          · rw [hs] at h1; exact absurd h1 (by simp)
          · exact h1
      have htl : collapseRuns ' ' true tl = tl := ihtl.2 htl_head
      constructor
      · subst hhd
        simp only [collapseRuns, hs, if_pos, Bool.false_eq_true, if_false, htl]
      · intro hx
        have := hx hd (by simp)
        rw [hs] at this
        exact absurd this (by simp)
    · have hs0 : isSpace hd = false := by simpa using hs
      constructor
      · simp only [collapseRuns, hs0, Bool.false_eq_true, if_false, ihtl.1]
      · intro _
        simp only [collapseRuns, hs0, Bool.false_eq_true, if_false, ihtl.1]

theorem cleanText_idem (s : String) : cleanText (cleanText s) = cleanText s := by
  unfold cleanText
  have hml : (String.mk (stripList (collapseRuns ' ' false s.toList))).toList
      = stripList (collapseRuns ' ' false s.toList) := rfl
  rw [hml]
  set m := stripList (collapseRuns ' ' false s.toList) with hm
  have hblank : BlankOnly m := by
    intro c hc hcs
    have h1 : c ∈ collapseRuns ' ' false s.toList := by
      have h2 := mem_dropTrailing (l := dropLeading (collapseRuns ' ' false s.toList)) (hm ▸ hc)
      exact List.Sublist.mem h2 (List.dropWhile_sublist _)
    exact blankOnly_collapseRuns c h1 hcs
  have hnd : NoDbl m := by
    rw [hm]
    exact noDbl_dropTrailing (noDbl_dropWhile (noDbl_collapseRuns false))
  have hhead : ∀ x, m.head? = some x → isSpace x = false := by
    intro x hx
    rw [hm] at hx
    exact head_dropWhile_not (dropTrailing_head hx)
  have hlast : ∀ x, m.getLast? = some x → isSpace x = false := by
    intro x hx
    rw [hm] at hx
    exact dropTrailing_last_not_space hx
  rw [(collapseRuns_id_of_clean hblank hnd).1]
  unfold stripList dropLeading
  rw [dropWhile_of_head hhead, dropTrailing_of_last hlast]

theorem sanitizeCell_idem (c : Cell) : sanitizeCell (sanitizeCell c) = sanitizeCell c := by
  simp only [sanitizeCell, cellToString, cleanText_idem]

/-! ### Idempotence of column-name normalization -/

theorem dropWhile_of_none {p : Char → Bool} {l : List Char}
    (h : ∀ c ∈ l, p c = false) : l.dropWhile p = l := by
  cases l with
  | nil => rfl
  | cons hd tl => exact List.dropWhile_cons_of_neg (by simp [h hd (List.mem_cons_self _ _)])

theorem dropTrailing_of_none {l : List Char}
    (h : ∀ c ∈ l, isSpace c = false) : dropTrailing l = l := by
  apply dropTrailing_of_last
  intro x hx
  exact h x (List.mem_of_mem_getLast? hx)

theorem normalizeName_idem (s : String) : normalizeName (normalizeName s) = normalizeName s := by
  unfold normalizeName
  have hml : (String.mk ((collapseRuns '_' false ((stripList s.toList).map toLowerCh)).filter isWordChar)).toList
      = (collapseRuns '_' false ((stripList s.toList).map toLowerCh)).filter isWordChar := rfl
  rw [hml]
  set m := (collapseRuns '_' false ((stripList s.toList).map toLowerCh)).filter isWordChar with hm
  have hword : ∀ c ∈ m, isWordChar c = true := by
    intro c hc
    exact (List.mem_filter.mp (hm ▸ hc)).2
  have hnos : ∀ c ∈ m, isSpace c = false := fun c hc => word_not_space (hword c hc)
  have hlow : ∀ c ∈ m, toLowerCh c = c := by
    intro c hc
    have h1 : c ∈ collapseRuns '_' false ((stripList s.toList).map toLowerCh) :=
      (List.mem_filter.mp (hm ▸ hc)).1
    rcases mem_collapseRuns h1 with h2 | ⟨h3, _⟩
    · subst h2
      rfl
    · rcases List.mem_map.mp h3 with ⟨a, _, rfl⟩
      exact toLowerCh_idem a
  rw [show stripList m = m from by
    unfold stripList dropLeading
    rw [dropWhile_of_none hnos, dropTrailing_of_none hnos]]
  rw [map_id_on hlow]
  rw [collapseRuns_of_no_space hnos false]
  rw [List.filter_eq_self.mpr hword]

/-! ### Table operation lemmas -/

theorem mapCol_header (t : Table) (n : String) (f : Cell → Cell) :
    (t.mapCol n f).header = t.header := by
  unfold Table.mapCol
  cases colIdx n t.header <;> rfl

theorem filterByCol_header (t : Table) (n : String) :
    (filterByCol t n).header = t.header := by
  unfold filterByCol
  cases colIdx n t.header <;> rfl

theorem mapCol_rows_length (t : Table) (n : String) (f : Cell → Cell) :
    (t.mapCol n f).rows.length = t.rows.length := by
  unfold Table.mapCol
  cases colIdx n t.header <;> simp

theorem WF_mapCol {t : Table} (n : String) (f : Cell → Cell) (h : WF t) :
    WF (t.mapCol n f) := by
  unfold Table.mapCol
  cases e : colIdx n t.header with
  | none => exact h
  | some i =>
    intro r hr
    simp only [List.mem_map] at hr
    obtain ⟨r0, hr0, rfl⟩ := hr
    simp [List.length_set, h r0 hr0]

theorem WF_filterByCol {t : Table} (n : String) (h : WF t) : WF (filterByCol t n) := by
  unfold filterByCol
  cases e : colIdx n t.header with
  | none => exact h
  | some i =>
    intro r hr
    exact h r (List.mem_filter.mp hr).1

theorem mem_rows_filterByCol {t : Table} {n : String} {r : List Cell}
    (h : r ∈ (filterByCol t n).rows) : r ∈ t.rows := by
  unfold filterByCol at h
  cases e : colIdx n t.header with
  | none => rw [e] at h; exact h
  | some i => rw [e] at h; exact (List.mem_filter.mp h).1

theorem getCol_mapCol_self {t : Table} {n : String} (f : Cell → Cell)
    (hwf : WF t) (hn : n ∈ t.header) :
    (t.mapCol n f).getCol n = (t.getCol n).map f := by
  obtain ⟨i, hi⟩ := mem_iff_colIdx_some.mp hn
  unfold Table.mapCol Table.getCol
  rw [hi]
  simp only [hi, List.map_map]
  apply List.map_congr_left
  intro r hr
  simp only [Function.comp_apply]
  exact getD_set_self _ i _ _ (by rw [hwf r hr]; exact colIdx_lt hi)

theorem getCol_mapCol_ne {t : Table} {n m : String} (f : Cell → Cell) (hnm : m ≠ n) :
    (t.mapCol m f).getCol n = t.getCol n := by
  unfold Table.mapCol Table.getCol
  cases em : colIdx m t.header with
  | none => rfl
  | some i =>
    simp only
    cases en : colIdx n t.header with
    | none => rfl
    | some j =>
      simp only [List.map_map]
      apply List.map_congr_left
      intro r hr
      simp only [Function.comp_apply]
      exact getD_set_ne _ i j _ _ (colIdx_ne_of_name_ne hnm em en)

theorem mem_header_mapCol {t : Table} {n m : String} {f : Cell → Cell} :
    n ∈ (t.mapCol m f).header ↔ n ∈ t.header := by
  rw [mapCol_header]

/-- The table after the price half of `handle_missing_values`. -/
def handlePrice (t : Table) : Table :=
  if "price" ∈ t.header then
    let tc := t.mapCol "price" toNumericCell
    tc.mapCol "price" (fillNa (priceFillValue (tc.getCol "price")))
  else t

/-- The table after the quantity half of `handle_missing_values`. -/
def handleQuantity (t : Table) : Table :=
  if "quantity" ∈ t.header then
    (t.mapCol "quantity" toNumericCell).mapCol "quantity" (fillNa 0)
  else t

theorem handle_missing_values_eq (t : Table) :
    handle_missing_values t = handleQuantity (handlePrice t) := by
  unfold handle_missing_values handleQuantity handlePrice
  by_cases hp : "price" ∈ t.header <;> simp [hp]

theorem handlePrice_header (t : Table) : (handlePrice t).header = t.header := by
  unfold handlePrice
  by_cases hp : "price" ∈ t.header <;> simp [hp, mapCol_header]

theorem handleQuantity_header (t : Table) : (handleQuantity t).header = t.header := by
  unfold handleQuantity
  by_cases hq : "quantity" ∈ t.header <;> simp [hq, mapCol_header]

theorem handle_missing_values_header (t : Table) :
    (handle_missing_values t).header = t.header := by
  rw [handle_missing_values_eq, handleQuantity_header, handlePrice_header]

theorem WF_handlePrice {t : Table} (h : WF t) : WF (handlePrice t) := by
  unfold handlePrice
  by_cases hp : "price" ∈ t.header
  · simp only [hp, if_pos]
    have h1 := WF_mapCol "price" toNumericCell h
    have h2 := WF_mapCol (t := t.mapCol "price" toNumericCell) "price"
      (fillNa (priceFillValue ((t.mapCol "price" toNumericCell).getCol "price"))) h1
    intro r hr
    rw [mapCol_header, mapCol_header]
    exact (h2 r hr).trans (by rw [mapCol_header, mapCol_header])
  · simpa [hp] using h

theorem WF_handleQuantity {t : Table} (h : WF t) : WF (handleQuantity t) := by
  unfold handleQuantity
  by_cases hq : "quantity" ∈ t.header
  · simp only [hq, if_pos]
    have h1 := WF_mapCol "quantity" toNumericCell h
    have h2 := WF_mapCol (t := t.mapCol "quantity" toNumericCell) "quantity" (fillNa 0) h1
    intro r hr
    rw [mapCol_header, mapCol_header]
    exact (h2 r hr).trans (by rw [mapCol_header, mapCol_header])
  · simpa [hq] using h

theorem getCol_handlePrice_of_mem {t : Table} (hwf : WF t) (hp : "price" ∈ t.header) :
    (handlePrice t).getCol "price" =
      ((t.getCol "price").map toNumericCell).map
        (fillNa (priceFillValue ((t.getCol "price").map toNumericCell))) := by
  unfold handlePrice
  simp only [hp, if_pos]
  have h1 : (t.mapCol "price" toNumericCell).getCol "price"
      = (t.getCol "price").map toNumericCell := getCol_mapCol_self toNumericCell hwf hp
  rw [getCol_mapCol_self _ (WF_mapCol _ _ hwf) (by rwa [mapCol_header]), h1]

theorem getCol_handleQuantity_of_mem {t : Table} (hwf : WF t) (hq : "quantity" ∈ t.header) :
    (handleQuantity t).getCol "quantity" =
      ((t.getCol "quantity").map toNumericCell).map (fillNa 0) := by
  unfold handleQuantity
  simp only [hq, if_pos]
  have h1 : (t.mapCol "quantity" toNumericCell).getCol "quantity"
      = (t.getCol "quantity").map toNumericCell := getCol_mapCol_self toNumericCell hwf hq
  rw [getCol_mapCol_self _ (WF_mapCol _ _ hwf) (by rwa [mapCol_header]), h1]

theorem getCol_handlePrice_ne {t : Table} {n : String} (hn : n ≠ "price") :
    (handlePrice t).getCol n = t.getCol n := by
  unfold handlePrice
  by_cases hp : "price" ∈ t.header
  · simp only [hp, if_pos]
    rw [getCol_mapCol_ne _ (Ne.symm hn), getCol_mapCol_ne _ (Ne.symm hn)]
  · simp [hp]

theorem getCol_handleQuantity_ne {t : Table} {n : String} (hn : n ≠ "quantity") :
    (handleQuantity t).getCol n = t.getCol n := by
  unfold handleQuantity
  by_cases hq : "quantity" ∈ t.header
  · simp only [hq, if_pos]
    rw [getCol_mapCol_ne _ (Ne.symm hn), getCol_mapCol_ne _ (Ne.symm hn)]
  · simp [hq]

/-! ### Cell classification lemmas -/

/-- Finite-number cells: the cells the spec calls non-missing finite
numbers. -/
def isFiniteNum : Cell → Bool
  | .num _ => true
  | _ => false

/-- Number cells, finite or infinite; never missing, never a string. -/
def isNumberCell : Cell → Bool
  | .num _ => true
  | .pinf => true
  | .ninf => true
  | _ => false

theorem parseSigned_cases (rest : List Char) (sign : ℤ) :
    parseSigned rest sign = Cell.missing ∨ parseSigned rest sign = Cell.pinf ∨
      parseSigned rest sign = Cell.ninf ∨ ∃ q, parseSigned rest sign = Cell.num q := by
  unfold parseSigned
  by_cases h1 : (rest = "inf".toList || rest = "infinity".toList) = true
  · simp only [h1, if_pos]
    by_cases h2 : sign = 1
    · simp [h2]
    · simp [h2]
  · simp only [Bool.not_eq_true] at h1
    simp only [h1, Bool.false_eq_true, if_false]
    by_cases h2 : rest = "nan".toList
    · simp [h2]
    · simp only [h2, if_neg, if_false]
      cases e : parseDecimal rest with
      | none => simp [h2]
      | some q => simp [h2, e]

theorem parseNumStr_cases (s : String) :
    parseNumStr s = Cell.missing ∨ parseNumStr s = Cell.pinf ∨
      parseNumStr s = Cell.ninf ∨ ∃ q, parseNumStr s = Cell.num q := by
  unfold parseNumStr
  split
  · exact parseSigned_cases _ 1
  · exact parseSigned_cases _ (-1)
  · exact parseSigned_cases _ 1

theorem toNumericCell_cases (c : Cell) :
    toNumericCell c = Cell.missing ∨ toNumericCell c = Cell.pinf ∨
      toNumericCell c = Cell.ninf ∨ ∃ q, toNumericCell c = Cell.num q := by
  cases c with
  | num q => exact Or.inr (Or.inr (Or.inr ⟨q, rfl⟩))
  | pinf => exact Or.inr (Or.inl rfl)
  | ninf => exact Or.inr (Or.inr (Or.inl rfl))
  | missing => exact Or.inl rfl
  | str s => exact parseNumStr_cases s

theorem isNumberCell_fill_toNumeric (fv : ℚ) (c : Cell) :
    isNumberCell (fillNa fv (toNumericCell c)) = true := by
  rcases toNumericCell_cases c with h | h | h | ⟨q, h⟩ <;> rw [h] <;> rfl

/-! ### Row-level frame lemmas -/

theorem mapCol_rows_getD (t : Table) (n : String) (f : Cell → Cell) (k : ℕ) :
    ∃ g : List Cell → List Cell,
      (t.mapCol n f).rows.getD k [] = g (t.rows.getD k []) ∧
      (∀ r, (g r).length = r.length) ∧
      (∀ r j, t.header.getD j "" ≠ n → (g r).getD j Cell.missing = r.getD j Cell.missing) := by
  unfold Table.mapCol
  cases e : colIdx n t.header with
  | none => exact ⟨id, rfl, fun r => rfl, fun r j _ => rfl⟩
  | some i =>
    refine ⟨fun r => r.set i (f (r.getD i Cell.missing)), ?_, ?_, ?_⟩
    · exact getD_map_of_fix _ [] rfl t.rows k
    · intro r
      exact List.length_set r i _
    · intro r j hj
      apply getD_set_ne
      intro hij
      subst hij
      exact hj (colIdx_getD e)

theorem mapCol_cell_frame (t : Table) (n : String) (f : Cell → Cell) (k j : ℕ)
    (hj : t.header.getD j "" ≠ n) :
    ((t.mapCol n f).rows.getD k []).getD j Cell.missing
      = (t.rows.getD k []).getD j Cell.missing ∧
    ((t.mapCol n f).rows.getD k []).length = (t.rows.getD k []).length := by
  obtain ⟨g, hg1, hg2, hg3⟩ := mapCol_rows_getD t n f k
  rw [hg1]
  exact ⟨hg3 _ j hj, hg2 _⟩

theorem filterByCol_rows_sublist (t : Table) (n : String) :
    (filterByCol t n).rows.Sublist t.rows := by
  unfold filterByCol
  cases colIdx n t.header with
  | none => exact List.Sublist.refl _
  | some i => exact List.filter_sublist _

/-! ### Concrete example tables from the claims -/

/-- Price column of the C1 example: [10, 20, "bad", null, 30]. -/
def tEx1 : Table :=
  ⟨["price"], [[Cell.num 10], [Cell.num 20], [Cell.str "bad"], [Cell.missing], [Cell.num 30]]⟩

/-- Price column in which no cell parses as a number. -/
def tExNoParse : Table := ⟨["price"], [[Cell.str "zzz"], [Cell.missing]]⟩

/-- Quantity column of the C3 example: [5, "x", null, -1]. -/
def tEx3 : Table :=
  ⟨["quantity"], [[Cell.num 5], [Cell.str "x"], [Cell.missing], [Cell.num (-1)]]⟩

/-- The C5 example rows with (price, quantity) = (-5,10), (5,-10), (5,10). -/
def tEx5 : Table :=
  ⟨["price", "quantity"],
   [[Cell.num (-5), Cell.num 10], [Cell.num 5, Cell.num (-10)], [Cell.num 5, Cell.num 10]]⟩

/-- Product column with messy whitespace and a null, for C8. -/
def tEx8 : Table := ⟨["product"], [[Cell.str "  a \t b "], [Cell.missing]]⟩

/-- Table carrying both a qty and a units column, for C4. -/
def tQU : Table := ⟨["qty", "units"], [[Cell.num 2, Cell.str "box"]]⟩

/-- Price column holding the explicit infinity literal, for C2. -/
def tInf : Table := ⟨["price"], [[Cell.str "inf"]]⟩

/-- Table with one unmatched column next to a price column, for C7. -/
def tEx7 : Table := ⟨["Notes", "price"], [[Cell.str "hello", Cell.num 3]]⟩

/-! ### Model of main (source lines 157-165) -/

/-- Error surfaced by `main` when the source file is absent. -/
inductive RunError where
  | fileNotFound (msg : String)
  deriving DecidableEq, Repr

/-- Outcome of one run of `main`: the result surfaced to the caller,
whether the transform ran, and whether the output file was written. -/
structure RunOutcome where
  result : Except RunError Table
  processed : Bool
  written : Bool
  deriving Repr

/-- Embeds `main` (lines 157-165).  The filesystem is abstracted to the
existence flag of the source path and the raw table it holds: when the
source is absent, main raises FileNotFoundError before any processing and
before any output is written; otherwise it runs the transform and
writes. -/
def mainModel (srcExists : Bool) (raw : Table) : RunOutcome :=
  if srcExists then
    { result := Except.ok (clean_sales_data raw), processed := true, written := true }
  else
    { result := Except.error (RunError.fileNotFound "Raw data file not found"),
      processed := false, written := false }

/-! ### Claim theorems -/

/-- C9: for every source path that does not exist, the run fails with
FileNotFound, aborts before any processing and before any output is
written, and surfaces the error to the caller. -/
theorem c9_missing_file_aborts (raw : Table) :
    (mainModel false raw).processed = false ∧ (mainModel false raw).written = false ∧
      (mainModel false raw).result
        = Except.error (RunError.fileNotFound "Raw data file not found") :=
  ⟨rfl, rfl, rfl⟩

/-- C5: the row filter drops negative-price rows first, then
negative-quantity rows from the remainder, both stably: the survivors are
a subsequence of the original rows, the header is unchanged, and on the
example rows (-5,10), (5,-10), (5,10) the price filter removes the first
row, the quantity filter the second, and only (5,10) survives. -/
theorem c5_row_filter (t : Table) :
    remove_invalid_rows t = filterByCol (filterByCol t "price") "quantity" ∧
    (filterByCol t "price").rows.Sublist t.rows ∧
    (remove_invalid_rows t).rows.Sublist t.rows ∧
    (remove_invalid_rows t).header = t.header ∧
    filterByCol tEx5 "price"
      = ⟨["price", "quantity"], [[Cell.num 5, Cell.num (-10)], [Cell.num 5, Cell.num 10]]⟩ ∧
    remove_invalid_rows tEx5 = ⟨["price", "quantity"], [[Cell.num 5, Cell.num 10]]⟩ := by
  refine ⟨rfl, filterByCol_rows_sublist t "price", ?_, ?_, by decide, by decide⟩
  · exact (filterByCol_rows_sublist _ "quantity").trans (filterByCol_rows_sublist t "price")
  · rw [remove_invalid_rows, filterByCol_header, filterByCol_header]

/-- C10: `handle_missing_values` preserves the header, the number of
rows, and the length of every row, and leaves every cell in a column not
named price or quantity unchanged. -/
theorem c10_missing_values_frame (t : Table) (k j : ℕ)
    (hj1 : t.header.getD j "" ≠ "price") (hj2 : t.header.getD j "" ≠ "quantity") :
    (handle_missing_values t).header = t.header ∧
    (handle_missing_values t).rows.length = t.rows.length ∧
    ((handle_missing_values t).rows.getD k []).length = (t.rows.getD k []).length ∧
    ((handle_missing_values t).rows.getD k []).getD j Cell.missing
      = (t.rows.getD k []).getD j Cell.missing := by
  rw [handle_missing_values_eq]
  have hph := handlePrice_header t
  refine ⟨by rw [handleQuantity_header, hph], ?_, ?_, ?_⟩
  · unfold handleQuantity handlePrice
    by_cases hp : "price" ∈ t.header <;> by_cases hq : "quantity" ∈ t.header <;>
      simp [hp, hq, mapCol_rows_length, mapCol_header]
  · have h1 : ∀ u : Table, u.header = t.header →
        ((handlePrice u).rows.getD k []).length = (u.rows.getD k []).length := by
      intro u hu
      unfold handlePrice
      by_cases hp : "price" ∈ u.header
      · simp only [hp, if_pos]
        have a1 := (mapCol_cell_frame (u.mapCol "price" toNumericCell) "price"
          (fillNa (priceFillValue ((u.mapCol "price" toNumericCell).getCol "price"))) k j
          (by rw [mapCol_header, hu]; exact hj1)).2
        have a2 := (mapCol_cell_frame u "price" toNumericCell k j (by rw [hu]; exact hj1)).2
        exact a1.trans a2
      · simp [hp]
    have h2 : ∀ u : Table, u.header = t.header →
        ((handleQuantity u).rows.getD k []).length = (u.rows.getD k []).length := by
      intro u hu
      unfold handleQuantity
      by_cases hq : "quantity" ∈ u.header
      · simp only [hq, if_pos]
        have a1 := (mapCol_cell_frame (u.mapCol "quantity" toNumericCell) "quantity"
          (fillNa 0) k j (by rw [mapCol_header, hu]; exact hj2)).2
        have a2 := (mapCol_cell_frame u "quantity" toNumericCell k j (by rw [hu]; exact hj2)).2
        exact a1.trans a2
      · simp [hq]
    exact (h2 _ hph).trans (h1 t rfl)
  · have h1 : ∀ u : Table, u.header = t.header →
        ((handlePrice u).rows.getD k []).getD j Cell.missing
          = (u.rows.getD k []).getD j Cell.missing := by
      intro u hu
      unfold handlePrice
      by_cases hp : "price" ∈ u.header
      · simp only [hp, if_pos]
        have a1 := (mapCol_cell_frame (u.mapCol "price" toNumericCell) "price"
          (fillNa (priceFillValue ((u.mapCol "price" toNumericCell).getCol "price"))) k j
          (by rw [mapCol_header, hu]; exact hj1)).1
        have a2 := (mapCol_cell_frame u "price" toNumericCell k j (by rw [hu]; exact hj1)).1
        exact a1.trans a2
      · simp [hp]
    have h2 : ∀ u : Table, u.header = t.header →
        ((handleQuantity u).rows.getD k []).getD j Cell.missing
          = (u.rows.getD k []).getD j Cell.missing := by
      intro u hu
      unfold handleQuantity
      by_cases hq : "quantity" ∈ u.header
      · simp only [hq, if_pos]
        have a1 := (mapCol_cell_frame (u.mapCol "quantity" toNumericCell) "quantity"
          (fillNa 0) k j (by rw [mapCol_header, hu]; exact hj2)).1
        have a2 := (mapCol_cell_frame u "quantity" toNumericCell k j (by rw [hu]; exact hj2)).1
        exact a1.trans a2
      · simp [hq]
    exact (h2 _ hph).trans (h1 t rfl)

/-- C10 witness: the frame property instantiated on the C5 example table
at the quantity row 0 and a hypothetical third column index. -/
theorem c10_missing_values_frame_witness :
    (handle_missing_values tEx7).header = tEx7.header ∧
    (handle_missing_values tEx7).rows.length = tEx7.rows.length ∧
    ((handle_missing_values tEx7).rows.getD 0 []).length = (tEx7.rows.getD 0 []).length ∧
    ((handle_missing_values tEx7).rows.getD 0 []).getD 0 Cell.missing
      = (tEx7.rows.getD 0 []).getD 0 Cell.missing :=
  c10_missing_values_frame tEx7 0 0 (by decide) (by decide)

/-- C1: for every well-formed table with a price column, the price column
after Numeric Repair is the coerced column with every missing cell filled
by `priceFillValue` of the coerced (not yet filled) column, which is the
median of the finitely-parsing cells with fallback 0; on the example
column [10, 20, "bad", null, 30] the fill value is 20 and the result is
[10, 20, 20, 20, 30], and on a column with no parsing cell the fill value
is 0. -/
theorem c1_median_fill (t : Table) (hwf : WF t) (hp : "price" ∈ t.header) :
    (handle_missing_values t).getCol "price"
      = ((t.getCol "price").map toNumericCell).map
          (fillNa (priceFillValue ((t.getCol "price").map toNumericCell))) ∧
    medianList (finiteVals ((tEx1.getCol "price").map toNumericCell)) = some 20 ∧
    priceFillValue ((tEx1.getCol "price").map toNumericCell) = 20 ∧
    (handle_missing_values tEx1).getCol "price"
      = [Cell.num 10, Cell.num 20, Cell.num 20, Cell.num 20, Cell.num 30] ∧
    medianList (finiteVals ((tExNoParse.getCol "price").map toNumericCell)) = none ∧
    priceFillValue ((tExNoParse.getCol "price").map toNumericCell) = 0 ∧
    (handle_missing_values tExNoParse).getCol "price" = [Cell.num 0, Cell.num 0] := by
  refine ⟨?_, by decide, by decide, by decide, by decide, by decide, by decide⟩
  rw [handle_missing_values_eq,
    getCol_handleQuantity_ne (by decide : "price" ≠ "quantity")]
  exact getCol_handlePrice_of_mem hwf hp

/-- C1 witness: the general price equation instantiated on the example
table. -/
theorem c1_median_fill_witness :
    (handle_missing_values tEx1).getCol "price"
      = ((tEx1.getCol "price").map toNumericCell).map
          (fillNa (priceFillValue ((tEx1.getCol "price").map toNumericCell))) :=
  (c1_median_fill tEx1 (by decide) (by decide)).1

/-- C2 counterexample: on the price column ["inf"], the coercion parses
the cell to positive infinity, the fill value is 0, and the cell is
neither replaced by the fill value nor finite after Numeric Repair, so
not every cell is a non-missing finite number and infinities are not
treated as missing. -/
theorem c2_infinity_counterexample :
    (handle_missing_values tInf).getCol "price" = [Cell.pinf] ∧
    isFiniteNum Cell.pinf = false ∧
    priceFillValue ((tInf.getCol "price").map toNumericCell) = 0 ∧
    (handle_missing_values tInf).getCol "price" ≠ [Cell.num 0] ∧
    ((handle_missing_values tInf).getCol "price").all isFiniteNum = false := by
  refine ⟨by decide, rfl, by decide, by decide, by decide⟩

/-- C2 amended: after Numeric Repair every price cell is a non-missing
number, but possibly an infinity: explicit infinities parse successfully,
are excluded from the median, and pass through unreplaced. -/
theorem c2_price_all_numbers (t : Table) (hwf : WF t) (hp : "price" ∈ t.header) :
    ((handle_missing_values t).getCol "price").all isNumberCell = true := by
  have he : (handle_missing_values t).getCol "price"
      = ((t.getCol "price").map toNumericCell).map
          (fillNa (priceFillValue ((t.getCol "price").map toNumericCell))) := by
    rw [handle_missing_values_eq,
      getCol_handleQuantity_ne (by decide : "price" ≠ "quantity")]
    exact getCol_handlePrice_of_mem hwf hp
  rw [he, List.all_eq_true]
  intro c hc
  rw [List.map_map] at hc
  rcases List.mem_map.mp hc with ⟨c0, _, rfl⟩
  exact isNumberCell_fill_toNumeric _ c0

/-- C2 amended witness: every repaired price cell of the infinity example
is a number. -/
theorem c2_price_all_numbers_witness :
    ((handle_missing_values tInf).getCol "price").all isNumberCell = true :=
  c2_price_all_numbers tInf (by decide) (by decide)

/-- C3: for every well-formed table with a quantity column, the quantity
column after Numeric Repair is the coerced column with every missing cell
filled by 0; parseable values, negative ones included, are unchanged, and
on the example column [5, "x", null, -1] the result is [5, 0, 0, -1]. -/
theorem c3_quantity_fill (t : Table) (hwf : WF t) (hq : "quantity" ∈ t.header) :
    (handle_missing_values t).getCol "quantity"
      = ((t.getCol "quantity").map toNumericCell).map (fillNa 0) ∧
    fillNa 0 (toNumericCell (Cell.num (-1))) = Cell.num (-1) ∧
    fillNa 0 (toNumericCell (Cell.str "x")) = Cell.num 0 ∧
    fillNa 0 (toNumericCell Cell.missing) = Cell.num 0 ∧
    (handle_missing_values tEx3).getCol "quantity"
      = [Cell.num 5, Cell.num 0, Cell.num 0, Cell.num (-1)] := by
  refine ⟨?_, by decide, by decide, by decide, by decide⟩
  rw [handle_missing_values_eq]
  have h1 : (handlePrice t).getCol "quantity" = t.getCol "quantity" :=
    getCol_handlePrice_ne (by decide : "quantity" ≠ "price")
  have h2 : "quantity" ∈ (handlePrice t).header := by rwa [handlePrice_header]
  rw [getCol_handleQuantity_of_mem (WF_handlePrice hwf) h2, h1]

/-- C3 witness: the general quantity equation instantiated on the example
table. -/
theorem c3_quantity_fill_witness :
    (handle_missing_values tEx3).getCol "quantity"
      = ((tEx3.getCol "quantity").map toNumericCell).map (fillNa 0) :=
  (c3_quantity_fill tEx3 (by decide) (by decide)).1

/-- C8: for every well-formed table, the text sanitizer maps each cell of
a present product or category column through string coercion, collapse of
whitespace runs to one space, and stripping; a missing cell becomes the
literal string nan, and whitespace is collapsed and stripped as on the
examples. -/
theorem c8_text_sanitizer (t : Table) (hwf : WF t) :
    ("product" ∈ t.header →
      (sanitize_text t).getCol "product" = (t.getCol "product").map sanitizeCell) ∧
    ("category" ∈ t.header →
      (sanitize_text t).getCol "category" = (t.getCol "category").map sanitizeCell) ∧
    sanitizeCell Cell.missing = Cell.str "nan" ∧
    sanitizeCell (Cell.str "  a \t b ") = Cell.str "a b" ∧
    sanitizeCell (Cell.str "x  y") = Cell.str "x y" ∧
    (∀ c, sanitizeCell c = Cell.str (cleanText (cellToString c))) := by
  refine ⟨?_, ?_, by decide, by decide, by decide, fun c => rfl⟩
  · intro hp
    unfold sanitize_text
    rw [getCol_mapCol_ne _ (by decide : "category" ≠ "product")]
    exact getCol_mapCol_self sanitizeCell hwf hp
  · intro hc
    unfold sanitize_text
    rw [getCol_mapCol_self sanitizeCell (WF_mapCol _ _ hwf) (by rwa [mapCol_header])]
    rw [getCol_mapCol_ne _ (by decide : "product" ≠ "category")]

/-- C8 witness: the sanitizer equation and the nan coercion on the
example product column. -/
theorem c8_text_sanitizer_witness :
    (sanitize_text tEx8).getCol "product" = [Cell.str "a b", Cell.str "nan"] := by
  have h := (c8_text_sanitizer tEx8 (by decide)).1 (by decide)
  rw [h]
  decide

/-! ### find_column and rename lemmas -/

theorem find_column_none_iff (t : Table) (cands : List String) :
    find_column t cands = none ↔ ∀ c ∈ cands, c ∉ t.header := by
  unfold find_column
  rw [List.find?_eq_none]
  simp

theorem find_column_some_split {t : Table} {cands : List String} {c : String}
    (h : find_column t cands = some c) :
    c ∈ t.header ∧ ∃ pre post, cands = pre ++ c :: post ∧ ∀ x ∈ pre, x ∉ t.header := by
  induction cands with
  | nil => simp [find_column] at h
  | cons hd tl ih =>
    unfold find_column at h ih
    by_cases hm : hd ∈ t.header
    · rw [List.find?_cons_of_pos _ (by simpa using hm)] at h
      simp only [Option.some.injEq] at h
      subst h
      exact ⟨hm, [], tl, rfl, by simp⟩
    · rw [List.find?_cons_of_neg _ (by simpa using hm)] at h
      obtain ⟨h1, pre, post, h2, h3⟩ := ih h
      refine ⟨h1, hd :: pre, post, by rw [h2]; rfl, ?_⟩
      intro x hx
      rcases List.mem_cons.mp hx with rfl | hx2
      · exact hm
      · exact h3 x hx2

theorem find_column_mem_cands {t : Table} {cands : List String} {c : String}
    (h : find_column t cands = some c) : c ∈ cands :=
  List.mem_of_find?_eq_some h

theorem find_column_mem_header {t : Table} {cands : List String} {c : String}
    (h : find_column t cands = some c) : c ∈ t.header := by
  have := List.find?_some h
  simpa using this

theorem buildRenameMap_key_mem {t : Table} {p : String × String}
    (h : p ∈ buildRenameMap t) : p.1 ∈ allAliases := by
  unfold buildRenameMap at h
  simp only [List.mem_append] at h
  have hsub : ∀ (cands : List String) (nm : String),
      (∀ x ∈ cands, x ∈ allAliases) →
      p ∈ (match find_column t cands with | some c => [(c, nm)] | none => []) →
      p.1 ∈ allAliases := by
    intro cands nm hc hp
    cases e : find_column t cands with
    | none => rw [e] at hp; simp at hp
    | some c =>
      rw [e] at hp
      simp only [List.mem_singleton] at hp
      subst hp
      exact hc c (find_column_mem_cands e)
  have hprod : ∀ x ∈ productAliases, x ∈ allAliases := by intro x hx; simp [allAliases, hx]
  have hcat : ∀ x ∈ categoryAliases, x ∈ allAliases := by intro x hx; simp [allAliases, hx]
  have hpri : ∀ x ∈ priceAliases, x ∈ allAliases := by intro x hx; simp [allAliases, hx]
  have hqty : ∀ x ∈ quantityAliases, x ∈ allAliases := by intro x hx; simp [allAliases, hx]
  rcases h with ((h | h) | h) | h
  · exact hsub productAliases "product" hprod h
  · exact hsub categoryAliases "category" hcat h
  · exact hsub priceAliases "price" hpri h
  · exact hsub quantityAliases "quantity" hqty h

theorem applyRename_not_key {m : List (String × String)} {x : String}
    (h : ∀ p ∈ m, p.1 ≠ x) : applyRename m x = x := by
  unfold applyRename
  rw [List.find?_eq_none.mpr]
  intro p hp
  simpa using h p hp

/-- C4: field detection returns the first alias present among the column
names and none when no alias is present; on a table with both qty and
units columns, quantity detection binds to qty and the units column
survives the whole transform untouched in name and content. -/
theorem c4_field_detection (t : Table) (cands : List String) :
    (find_column t cands = none ↔ ∀ c ∈ cands, c ∉ t.header) ∧
    (∀ c, find_column t cands = some c →
      c ∈ t.header ∧ ∃ pre post, cands = pre ++ c :: post ∧ ∀ x ∈ pre, x ∉ t.header) ∧
    find_column tQU quantityAliases = some "qty" ∧
    find_column tQU productAliases = none ∧
    clean_sales_data tQU = ⟨["quantity", "units"], [[Cell.num 2, Cell.str "box"]]⟩ ∧
    (clean_sales_data tQU).getCol "units" = tQU.getCol "units" := by
  refine ⟨find_column_none_iff t cands, ?_, by decide, by decide, by decide, by decide⟩
  intro c h
  exact find_column_some_split h

/-- C4 witness: the qty binding and the untouched units column on the
concrete table. -/
theorem c4_field_detection_witness :
    clean_sales_data tQU = ⟨["quantity", "units"], [[Cell.num 2, Cell.str "box"]]⟩ :=
  (c4_field_detection tQU quantityAliases).2.2.2.2.1

/-! ### Column-preservation lemmas for unmatched columns -/

theorem getD_map_of_lt {α β} (f : α → β) (l : List α) (j : ℕ) (h : j < l.length)
    (d : α) (d2 : β) : (l.map f).getD j d2 = f (l.getD j d) := by
  induction l generalizing j with
  | nil => simp at h
  | cons hd tl ih =>
    cases j with
    | zero => rfl
    | succ k => exact ih k (by simpa using h)

theorem mapCol_colj_preserved (t : Table) (n : String) (f : Cell → Cell) (j : ℕ)
    (hj : t.header.getD j "" ≠ n) :
    (t.mapCol n f).rows.map (fun r => r.getD j Cell.missing)
      = t.rows.map (fun r => r.getD j Cell.missing) := by
  unfold Table.mapCol
  cases e : colIdx n t.header with
  | none => rfl
  | some i =>
    simp only [List.map_map]
    apply List.map_congr_left
    intro r _
    simp only [Function.comp_apply]
    apply getD_set_ne
    intro hij
    subst hij
    exact hj (colIdx_getD e)

theorem hmv_colj_preserved (t : Table) (j : ℕ)
    (hj1 : t.header.getD j "" ≠ "price") (hj2 : t.header.getD j "" ≠ "quantity") :
    (handle_missing_values t).rows.map (fun r => r.getD j Cell.missing)
      = t.rows.map (fun r => r.getD j Cell.missing) := by
  rw [handle_missing_values_eq]
  have hP : ∀ u : Table, u.header = t.header →
      (handlePrice u).rows.map (fun r => r.getD j Cell.missing)
        = u.rows.map (fun r => r.getD j Cell.missing) := by
    intro u hu
    unfold handlePrice
    by_cases hp : "price" ∈ u.header
    · simp only [hp, if_pos]
      rw [mapCol_colj_preserved _ _ _ j (by rw [mapCol_header, hu]; exact hj1),
        mapCol_colj_preserved _ _ _ j (by rw [hu]; exact hj1)]
    · simp [hp]
  have hQ : ∀ u : Table, u.header = t.header →
      (handleQuantity u).rows.map (fun r => r.getD j Cell.missing)
        = u.rows.map (fun r => r.getD j Cell.missing) := by
    intro u hu
    unfold handleQuantity
    by_cases hq : "quantity" ∈ u.header
    · simp only [hq, if_pos]
      rw [mapCol_colj_preserved _ _ _ j (by rw [mapCol_header, hu]; exact hj2),
        mapCol_colj_preserved _ _ _ j (by rw [hu]; exact hj2)]
    · simp [hq]
  rw [hQ _ (handlePrice_header t), hP t rfl]

theorem sanitize_text_header (t : Table) : (sanitize_text t).header = t.header := by
  unfold sanitize_text
  rw [mapCol_header, mapCol_header]

theorem remove_invalid_rows_header (t : Table) :
    (remove_invalid_rows t).header = t.header := by
  unfold remove_invalid_rows
  rw [filterByCol_header, filterByCol_header]

theorem remove_invalid_rows_sublist (t : Table) :
    (remove_invalid_rows t).rows.Sublist t.rows := by
  unfold remove_invalid_rows
  exact (filterByCol_rows_sublist _ "quantity").trans (filterByCol_rows_sublist t "price")

/-- C7: a column whose normalized name matches no alias of any canonical
field keeps its normalized name at its position, and its content passes
through the transform untouched except for whole-row removals by the row
filter: the output column is a subsequence of the input column. -/
theorem c7_unmatched_passthrough (t : Table) (j : ℕ) (hj : j < t.header.length)
    (halias : normalizeName (t.header.getD j "") ∉ allAliases) :
    (clean_sales_data t).header.getD j "" = normalizeName (t.header.getD j "") ∧
    ((clean_sales_data t).rows.map (fun r => r.getD j Cell.missing)).Sublist
      (t.rows.map (fun r => r.getD j Cell.missing)) := by
  set n := normalizeName (t.header.getD j "") with hn
  set t1 := standardize_column_names t with ht1
  set t2 := detectRename t1 with ht2
  have h1 : t1.header.getD j "" = n := by
    rw [ht1]
    unfold standardize_column_names
    exact getD_map_of_lt normalizeName t.header j hj "" ""
  have h2 : t2.header.getD j "" = n := by
    rw [ht2]
    unfold detectRename
    have hjl : j < t1.header.length := by
      rw [ht1]
      unfold standardize_column_names
      simpa using hj
    rw [getD_map_of_lt (applyRename (buildRenameMap t1)) t1.header j hjl "" "", h1]
    apply applyRename_not_key
    intro p hp he
    exact halias (he ▸ buildRenameMap_key_mem hp)
  have hhead : (clean_sales_data t).header.getD j "" = n := by
    unfold clean_sales_data
    rw [remove_invalid_rows_header, handle_missing_values_header, sanitize_text_header]
    exact h2
  refine ⟨hhead, ?_⟩
  have hnp : n ≠ "product" := fun he => halias (he ▸ (by decide : "product" ∈ allAliases))
  have hnc : n ≠ "category" := fun he => halias (he ▸ (by decide : "category" ∈ allAliases))
  have hnpr : n ≠ "price" := fun he => halias (he ▸ (by decide : "price" ∈ allAliases))
  have hnq : n ≠ "quantity" := fun he => halias (he ▸ (by decide : "quantity" ∈ allAliases))
  have h3 : (sanitize_text t2).rows.map (fun r => r.getD j Cell.missing)
      = t2.rows.map (fun r => r.getD j Cell.missing) := by
    unfold sanitize_text
    rw [mapCol_colj_preserved _ _ _ j (by rw [mapCol_header, h2]; exact hnc),
      mapCol_colj_preserved _ _ _ j (by rw [h2]; exact hnp)]
  have h4 : (handle_missing_values (sanitize_text t2)).rows.map (fun r => r.getD j Cell.missing)
      = (sanitize_text t2).rows.map (fun r => r.getD j Cell.missing) := by
    apply hmv_colj_preserved
    · rw [sanitize_text_header, h2]; exact hnpr
    · rw [sanitize_text_header, h2]; exact hnq
  have h5 : (clean_sales_data t).rows.Sublist
      (handle_missing_values (sanitize_text t2)).rows := by
    unfold clean_sales_data
    exact remove_invalid_rows_sublist _
  have h6 := List.Sublist.map (fun r => r.getD j Cell.missing) h5
  rw [h4, h3] at h6
  have h7 : t2.rows = t.rows := rfl
  rwa [h7] at h6

/-- C7 witness: the Notes column of the concrete table keeps its
normalized name and its content. -/
theorem c7_unmatched_passthrough_witness :
    (clean_sales_data tEx7).header.getD 0 "" = "notes" ∧
    ((clean_sales_data tEx7).rows.map (fun r => r.getD 0 Cell.missing)).Sublist
      (tEx7.rows.map (fun r => r.getD 0 Cell.missing)) := by
  have h := c7_unmatched_passthrough tEx7 0 (by decide) (by decide)
  exact ⟨h.1.trans (by decide), h.2⟩

/-! ### The invariant holding after one pass of the transform -/

/-- Every column name is a fixed point of normalization. -/
def NormFixed (t : Table) : Prop := ∀ n ∈ t.header, normalizeName n = n

/-- Field detection finds either nothing or the canonical name itself,
for each of the four fields. -/
def DetectIdem (t : Table) : Prop :=
  (find_column t productAliases = none ∨ find_column t productAliases = some "product") ∧
  (find_column t categoryAliases = none ∨ find_column t categoryAliases = some "category") ∧
  (find_column t priceAliases = none ∨ find_column t priceAliases = some "price") ∧
  (find_column t quantityAliases = none ∨ find_column t quantityAliases = some "quantity")

/-- Every cell of the named column, within the bounds of its row, is a
fixed point of the text sanitizer. -/
def ColSan (t : Table) (name : String) : Prop :=
  ∀ i, colIdx name t.header = some i → ∀ r ∈ t.rows, i < r.length →
    sanitizeCell (r.getD i Cell.missing) = r.getD i Cell.missing

/-- Every cell of the named column compares nonnegative the way the row
filter compares. -/
def ColGe0 (t : Table) (name : String) : Prop :=
  ∀ i, colIdx name t.header = some i → ∀ r ∈ t.rows, cellGe0 (r.getD i Cell.missing) = true

/-- The full invariant of a table produced by the transform. -/
def Cleaned (t : Table) : Prop :=
  NormFixed t ∧ DetectIdem t ∧ ColSan t "product" ∧ ColSan t "category" ∧
    ColGe0 t "price" ∧ ColGe0 t "quantity"

/-! ### Identity of each stage on a cleaned table -/

theorem cellGe0_toNumeric {c : Cell} (h : cellGe0 c = true) : toNumericCell c = c := by
  cases c <;> first | rfl | simp [cellGe0] at h

theorem cellGe0_fillNa {c : Cell} (fv : ℚ) (h : cellGe0 c = true) : fillNa fv c = c := by
  cases c <;> first | rfl | simp [cellGe0] at h

theorem mapCol_id {t : Table} {n : String} {f : Cell → Cell}
    (h : ∀ i, colIdx n t.header = some i → ∀ r ∈ t.rows, i < r.length →
      f (r.getD i Cell.missing) = r.getD i Cell.missing) :
    t.mapCol n f = t := by
  unfold Table.mapCol
  cases e : colIdx n t.header with
  | none => rfl
  | some i =>
    have hrows : t.rows.map (fun r => r.set i (f (r.getD i Cell.missing))) = t.rows := by
      apply map_id_on
      intro r hr
      by_cases hl : i < r.length
      · rw [h i e r hr hl]
        exact set_getD_self r i _
      · exact List.set_eq_of_length_le (by omega)
    show { t with rows := t.rows.map (fun r => r.set i (f (r.getD i Cell.missing))) } = t
    rw [hrows]

theorem filterByCol_id {t : Table} {n : String}
    (h : ∀ i, colIdx n t.header = some i → ∀ r ∈ t.rows, cellGe0 (r.getD i Cell.missing) = true) :
    filterByCol t n = t := by
  unfold filterByCol
  cases e : colIdx n t.header with
  | none => rfl
  | some i =>
    show { t with rows := t.rows.filter (fun r => cellGe0 (r.getD i Cell.missing)) } = t
    rw [List.filter_eq_self.mpr (h i e)]

theorem standardize_id {t : Table} (h : NormFixed t) : standardize_column_names t = t := by
  unfold standardize_column_names
  rw [map_id_on h]

theorem buildRenameMap_cases {t : Table} {p : String × String} (h : p ∈ buildRenameMap t) :
    (find_column t productAliases = some p.1 ∧ p.2 = "product") ∨
    (find_column t categoryAliases = some p.1 ∧ p.2 = "category") ∨
    (find_column t priceAliases = some p.1 ∧ p.2 = "price") ∨
    (find_column t quantityAliases = some p.1 ∧ p.2 = "quantity") := by
  unfold buildRenameMap at h
  simp only [List.mem_append] at h
  have hsub : ∀ (cands : List String) (nm : String),
      p ∈ (match find_column t cands with | some c => [(c, nm)] | none => []) →
      find_column t cands = some p.1 ∧ p.2 = nm := by
    intro cands nm hp
    cases e : find_column t cands with
    | none => rw [e] at hp; simp at hp
    | some c =>
      rw [e] at hp
      simp only [List.mem_singleton] at hp
      subst hp
      exact ⟨rfl, rfl⟩
  rcases h with ((h | h) | h) | h
  · exact Or.inl (hsub productAliases "product" h)
  · exact Or.inr (Or.inl (hsub categoryAliases "category" h))
  · exact Or.inr (Or.inr (Or.inl (hsub priceAliases "price" h)))
  · exact Or.inr (Or.inr (Or.inr (hsub quantityAliases "quantity" h)))

theorem applyRename_id {m : List (String × String)} (h : ∀ p ∈ m, p.1 = p.2) (x : String) :
    applyRename m x = x := by
  unfold applyRename
  cases e : m.find? (fun p => p.1 = x) with
  | none => rfl
  | some p =>
    have h1 : p.1 = x := by simpa using List.find?_some e
    have h2 := h p (List.mem_of_find?_eq_some e)
    show p.2 = x
    rw [← h2]
    exact h1

theorem detectRename_id {t : Table} (h : DetectIdem t) : detectRename t = t := by
  unfold detectRename
  have hm : ∀ p ∈ buildRenameMap t, p.1 = p.2 := by
    intro p hp
    obtain ⟨h1, h2, h3, h4⟩ := h
    rcases buildRenameMap_cases hp with ⟨e, hv⟩ | ⟨e, hv⟩ | ⟨e, hv⟩ | ⟨e, hv⟩
    · rcases h1 with hn | hs
      · rw [hn] at e; exact Option.noConfusion e
      · rw [hs] at e
        simp only [Option.some.injEq] at e
        rw [← e, hv]
    · rcases h2 with hn | hs
      · rw [hn] at e; exact Option.noConfusion e
      · rw [hs] at e
        simp only [Option.some.injEq] at e
        rw [← e, hv]
    · rcases h3 with hn | hs
      · rw [hn] at e; exact Option.noConfusion e
      · rw [hs] at e
        simp only [Option.some.injEq] at e
        rw [← e, hv]
    · rcases h4 with hn | hs
      · rw [hn] at e; exact Option.noConfusion e
      · rw [hs] at e
        simp only [Option.some.injEq] at e
        rw [← e, hv]
  rw [map_id_on (fun x _ => applyRename_id hm x)]

theorem sanitize_text_id {t : Table} (h1 : ColSan t "product") (h2 : ColSan t "category") :
    sanitize_text t = t := by
  unfold sanitize_text
  rw [mapCol_id h1, mapCol_id h2]

theorem handle_missing_values_id {t : Table} (h1 : ColGe0 t "price") (h2 : ColGe0 t "quantity") :
    handle_missing_values t = t := by
  rw [handle_missing_values_eq]
  have hP : handlePrice t = t := by
    unfold handlePrice
    by_cases hp : "price" ∈ t.header
    · simp only [hp, if_pos]
      have hA : t.mapCol "price" toNumericCell = t :=
        mapCol_id (fun i e r hr _ => cellGe0_toNumeric (h1 i e r hr))
      rw [hA]
      exact mapCol_id (fun i e r hr _ => cellGe0_fillNa _ (h1 i e r hr))
    · simp [hp]
  rw [hP]
  unfold handleQuantity
  by_cases hq : "quantity" ∈ t.header
  · simp only [hq, if_pos]
    have hA : t.mapCol "quantity" toNumericCell = t :=
      mapCol_id (fun i e r hr _ => cellGe0_toNumeric (h2 i e r hr))
    rw [hA]
    exact mapCol_id (fun i e r hr _ => cellGe0_fillNa _ (h2 i e r hr))
  · simp [hq]

theorem remove_invalid_rows_id {t : Table} (h1 : ColGe0 t "price") (h2 : ColGe0 t "quantity") :
    remove_invalid_rows t = t := by
  unfold remove_invalid_rows
  rw [filterByCol_id h1, filterByCol_id h2]

theorem clean_fixed {t : Table} (h : Cleaned t) : clean_sales_data t = t := by
  obtain ⟨h1, h2, h3, h4, h5, h6⟩ := h
  unfold clean_sales_data
  rw [standardize_id h1, detectRename_id h2, sanitize_text_id h3 h4,
    handle_missing_values_id h5 h6, remove_invalid_rows_id h5 h6]

/-! ### Establishing the invariant after one pass -/

theorem ColSan_mapCol_ne {t : Table} {n m : String} {f : Cell → Cell}
    (h : ColSan t n) (hne : m ≠ n) : ColSan (t.mapCol m f) n := by
  intro i e r' hr' hl
  rw [mapCol_header] at e
  unfold Table.mapCol at hr'
  cases em : colIdx m t.header with
  | none =>
    rw [em] at hr'
    exact h i e r' hr' hl
  | some im =>
    rw [em] at hr'
    rcases List.mem_map.mp hr' with ⟨r, hr, rfl⟩
    have hne2 : im ≠ i := colIdx_ne_of_name_ne hne em e
    rw [getD_set_ne r im i _ _ hne2]
    exact h i e r hr (by rw [List.length_set] at hl; exact hl)

theorem ColSan_filterByCol {t : Table} {n m : String} (h : ColSan t n) :
    ColSan (filterByCol t m) n := by
  intro i e r hr hl
  rw [filterByCol_header] at e
  exact h i e r (mem_rows_filterByCol hr) hl

theorem ColSan_establish (t : Table) (n : String) : ColSan (t.mapCol n sanitizeCell) n := by
  intro i e r' hr' hl
  rw [mapCol_header] at e
  unfold Table.mapCol at hr'
  rw [e] at hr'
  rcases List.mem_map.mp hr' with ⟨r, hr, rfl⟩
  rw [List.length_set] at hl
  rw [getD_set_self r i _ _ hl]
  exact sanitizeCell_idem _

theorem ColSan_handle_missing_values {t : Table} {n : String} (h : ColSan t n)
    (h1 : n ≠ "price") (h2 : n ≠ "quantity") : ColSan (handle_missing_values t) n := by
  rw [handle_missing_values_eq]
  have hP : ∀ u : Table, ColSan u n → ColSan (handlePrice u) n := by
    intro u hu
    unfold handlePrice
    by_cases hp : "price" ∈ u.header
    · simp only [hp, if_pos]
      exact ColSan_mapCol_ne (ColSan_mapCol_ne hu (Ne.symm h1)) (Ne.symm h1)
    · simpa [hp] using hu
  have hQ : ∀ u : Table, ColSan u n → ColSan (handleQuantity u) n := by
    intro u hu
    unfold handleQuantity
    by_cases hq : "quantity" ∈ u.header
    · simp only [hq, if_pos]
      exact ColSan_mapCol_ne (ColSan_mapCol_ne hu (Ne.symm h2)) (Ne.symm h2)
    · simpa [hq] using hu
  exact hQ _ (hP _ h)

theorem ColSan_remove_invalid_rows {t : Table} {n : String} (h : ColSan t n) :
    ColSan (remove_invalid_rows t) n := by
  unfold remove_invalid_rows
  exact ColSan_filterByCol (ColSan_filterByCol h)

theorem ColGe0_filterByCol_self (t : Table) (n : String) : ColGe0 (filterByCol t n) n := by
  intro i e r hr
  rw [filterByCol_header] at e
  unfold filterByCol at hr
  rw [e] at hr
  exact (List.mem_filter.mp hr).2

theorem ColGe0_filterByCol_other {t : Table} {n m : String} (h : ColGe0 t n) :
    ColGe0 (filterByCol t m) n := by
  intro i e r hr
  rw [filterByCol_header] at e
  exact h i e r (mem_rows_filterByCol hr)

theorem ColGe0_remove_invalid_rows_price (t : Table) :
    ColGe0 (remove_invalid_rows t) "price" := by
  unfold remove_invalid_rows
  exact ColGe0_filterByCol_other (ColGe0_filterByCol_self t "price")

theorem ColGe0_remove_invalid_rows_quantity (t : Table) :
    ColGe0 (remove_invalid_rows t) "quantity" := by
  unfold remove_invalid_rows
  exact ColGe0_filterByCol_self _ "quantity"

theorem clean_sales_data_header (t : Table) :
    (clean_sales_data t).header = (detectRename (standardize_column_names t)).header := by
  unfold clean_sales_data
  rw [remove_invalid_rows_header, handle_missing_values_header, sanitize_text_header]

theorem find_column_congr {t u : Table} (h : t.header = u.header) (A : List String) :
    find_column t A = find_column u A := by
  unfold find_column
  rw [h]

theorem NormFixed_after_rename (t : Table) :
    NormFixed (detectRename (standardize_column_names t)) := by
  intro x hx
  unfold detectRename at hx
  simp only at hx
  rcases List.mem_map.mp hx with ⟨y, hy, rfl⟩
  unfold standardize_column_names at hy
  simp only at hy
  rcases List.mem_map.mp hy with ⟨z, _, rfl⟩
  unfold applyRename
  cases ef : (buildRenameMap (standardize_column_names t)).find? (fun p => p.1 = normalizeName z) with
  | none => exact normalizeName_idem z
  | some p =>
    show normalizeName p.2 = p.2
    have hp := List.mem_of_find?_eq_some ef
    rcases buildRenameMap_cases hp with ⟨_, h2⟩ | ⟨_, h2⟩ | ⟨_, h2⟩ | ⟨_, h2⟩ <;> rw [h2] <;> decide

theorem NormFixed_clean (t : Table) : NormFixed (clean_sales_data t) := by
  intro x hx
  rw [clean_sales_data_header] at hx
  exact NormFixed_after_rename t x hx

/-! ### Stability of field detection under the rename -/

theorem block_skip {t : Table} (cands : List String) (nm a : String)
    (hne : ∀ c ∈ cands, c ≠ a) :
    (match find_column t cands with
      | some c => [(c, nm)]
      | none => ([] : List (String × String))).find? (fun p : String × String => p.1 = a)
      = none := by
  cases e : find_column t cands with
  | none => rfl
  | some c => simp [hne c (find_column_mem_cands e)]

theorem prod_cat_disj : ∀ a ∈ categoryAliases, ∀ c ∈ productAliases, c ≠ a := by decide

theorem prod_price_disj : ∀ a ∈ priceAliases, ∀ c ∈ productAliases, c ≠ a := by decide

theorem cat_price_disj : ∀ a ∈ priceAliases, ∀ c ∈ categoryAliases, c ≠ a := by decide

theorem prod_qty_disj : ∀ a ∈ quantityAliases, ∀ c ∈ productAliases, c ≠ a := by decide

theorem cat_qty_disj : ∀ a ∈ quantityAliases, ∀ c ∈ categoryAliases, c ≠ a := by decide

theorem price_qty_disj : ∀ a ∈ quantityAliases, ∀ c ∈ priceAliases, c ≠ a := by decide

theorem applyRename_detected_product {t : Table} {a : String}
    (e : find_column t productAliases = some a) :
    applyRename (buildRenameMap t) a = "product" := by
  unfold applyRename buildRenameMap
  rw [e]
  simp [List.find?_append]

theorem applyRename_detected_category {t : Table} {a : String}
    (e : find_column t categoryAliases = some a) :
    applyRename (buildRenameMap t) a = "category" := by
  have ha := find_column_mem_cands e
  unfold applyRename buildRenameMap
  rw [e]
  simp [List.find?_append,
    block_skip productAliases "product" a (fun c hc => prod_cat_disj a ha c hc)]

theorem applyRename_detected_price {t : Table} {a : String}
    (e : find_column t priceAliases = some a) :
    applyRename (buildRenameMap t) a = "price" := by
  have ha := find_column_mem_cands e
  unfold applyRename buildRenameMap
  rw [e]
  simp [List.find?_append,
    block_skip productAliases "product" a (fun c hc => prod_price_disj a ha c hc),
    block_skip categoryAliases "category" a (fun c hc => cat_price_disj a ha c hc)]

theorem applyRename_detected_quantity {t : Table} {a : String}
    (e : find_column t quantityAliases = some a) :
    applyRename (buildRenameMap t) a = "quantity" := by
  have ha := find_column_mem_cands e
  unfold applyRename buildRenameMap
  rw [e]
  simp [List.find?_append,
    block_skip productAliases "product" a (fun c hc => prod_qty_disj a ha c hc),
    block_skip categoryAliases "category" a (fun c hc => cat_qty_disj a ha c hc),
    block_skip priceAliases "price" a (fun c hc => price_qty_disj a ha c hc)]

theorem detect_field_stable (t1 : Table) (A : List String) (cF : String) (rest : List String)
    (hA : A = cF :: rest)
    (hsome : ∀ a, find_column t1 A = some a → applyRename (buildRenameMap t1) a = cF)
    (hside : ∀ p ∈ buildRenameMap t1, find_column t1 A = none → p.2 ∉ A) :
    find_column (detectRename t1) A = none ∨ find_column (detectRename t1) A = some cF := by
  cases e : find_column t1 A with
  | some a =>
    right
    have h1 : a ∈ t1.header := find_column_mem_header e
    have h2 : cF ∈ (detectRename t1).header := by
      unfold detectRename
      simp only
      rw [← hsome a e]
      exact List.mem_map_of_mem _ h1
    rw [hA]
    unfold find_column
    exact List.find?_cons_of_pos _ (by simpa using h2)
  | none =>
    left
    rw [find_column_none_iff]
    intro c hc hmem
    unfold detectRename at hmem
    simp only at hmem
    rcases List.mem_map.mp hmem with ⟨y, hy, hyc⟩
    unfold applyRename at hyc
    cases ef : (buildRenameMap t1).find? (fun p => p.1 = y) with
    | none =>
      rw [ef] at hyc
      have hyc2 : y = c := hyc
      exact ((find_column_none_iff _ _).mp e c hc) (hyc2 ▸ hy)
    | some p =>
      rw [ef] at hyc
      have hyc2 : p.2 = c := hyc
      have hp := List.mem_of_find?_eq_some ef
      exact (hside p hp e) (hyc2 ▸ hc)

theorem DetectIdem_after_rename (t : Table) :
    DetectIdem (detectRename (standardize_column_names t)) := by
  set t1 := standardize_column_names t with ht1
  refine ⟨?_, ?_, ?_, ?_⟩
  · apply detect_field_stable t1 productAliases "product" ["product_name", "name"] rfl
    · intro a e
      exact applyRename_detected_product e
    · intro p hp e
      rcases buildRenameMap_cases hp with ⟨e2, hv⟩ | ⟨_, hv⟩ | ⟨_, hv⟩ | ⟨_, hv⟩
      · rw [e] at e2; exact Option.noConfusion e2
      · rw [hv]; decide
      · rw [hv]; decide
      · rw [hv]; decide
  · apply detect_field_stable t1 categoryAliases "category" ["cat", "product_category"] rfl
    · intro a e
      exact applyRename_detected_category e
    · intro p hp e
      rcases buildRenameMap_cases hp with ⟨_, hv⟩ | ⟨e2, hv⟩ | ⟨_, hv⟩ | ⟨_, hv⟩
      · rw [hv]; decide
      · rw [e] at e2; exact Option.noConfusion e2
      · rw [hv]; decide
      · rw [hv]; decide
  · apply detect_field_stable t1 priceAliases "price" ["unit_price", "price_usd", "price_$"] rfl
    · intro a e
      exact applyRename_detected_price e
    · intro p hp e
      rcases buildRenameMap_cases hp with ⟨_, hv⟩ | ⟨_, hv⟩ | ⟨e2, hv⟩ | ⟨_, hv⟩
      · rw [hv]; decide
      · rw [hv]; decide
      · rw [e] at e2; exact Option.noConfusion e2
      · rw [hv]; decide
  · apply detect_field_stable t1 quantityAliases "quantity" ["qty", "amount", "units"] rfl
    · intro a e
      exact applyRename_detected_quantity e
    · intro p hp e
      rcases buildRenameMap_cases hp with ⟨_, hv⟩ | ⟨_, hv⟩ | ⟨_, hv⟩ | ⟨e2, hv⟩
      · rw [hv]; decide
      · rw [hv]; decide
      · rw [hv]; decide
      · rw [e] at e2; exact Option.noConfusion e2

theorem DetectIdem_clean (t : Table) : DetectIdem (clean_sales_data t) := by
  obtain ⟨d1, d2, d3, d4⟩ := DetectIdem_after_rename t
  have hc := clean_sales_data_header t
  exact ⟨by rw [find_column_congr hc]; exact d1, by rw [find_column_congr hc]; exact d2,
    by rw [find_column_congr hc]; exact d3, by rw [find_column_congr hc]; exact d4⟩

theorem ColSan_clean_product (t : Table) : ColSan (clean_sales_data t) "product" := by
  unfold clean_sales_data
  apply ColSan_remove_invalid_rows
  apply ColSan_handle_missing_values _ (by decide) (by decide)
  unfold sanitize_text
  exact ColSan_mapCol_ne (ColSan_establish _ "product") (by decide : "category" ≠ "product")

theorem ColSan_clean_category (t : Table) : ColSan (clean_sales_data t) "category" := by
  unfold clean_sales_data
  apply ColSan_remove_invalid_rows
  apply ColSan_handle_missing_values _ (by decide) (by decide)
  unfold sanitize_text
  exact ColSan_establish _ "category"

theorem ColGe0_clean_price (t : Table) : ColGe0 (clean_sales_data t) "price" := by
  unfold clean_sales_data
  exact ColGe0_remove_invalid_rows_price _

theorem ColGe0_clean_quantity (t : Table) : ColGe0 (clean_sales_data t) "quantity" := by
  unfold clean_sales_data
  exact ColGe0_remove_invalid_rows_quantity _

theorem cleaned_clean (t : Table) : Cleaned (clean_sales_data t) :=
  ⟨NormFixed_clean t, DetectIdem_clean t, ColSan_clean_product t, ColSan_clean_category t,
   ColGe0_clean_price t, ColGe0_clean_quantity t⟩

/-- C6: the transform of stages 2 through 5 is a fixed point on its own
output: applying it a second time to any cleaned table removes no row and
changes no cell. -/
theorem c6_transform_idempotent (t : Table) :
    clean_sales_data (clean_sales_data t) = clean_sales_data t :=
  clean_fixed (cleaned_clean t)

end DataCleaning
